import Mathlib

/-!
Shallow embedding of the timetable candidate generator of `Class22.py`
(function `generate_schedules`, the two ranking comparators `sort_key` /
`sort_key_generated`, and the data model `Course`), together with proofs of
the specification claims about it.

Python dicts preserve insertion order; they are modelled as association
lists updated by `setdefault`-style helpers.  Python's stable `sort` /
`sorted` is modelled by `List.mergeSort` (also stable).  The calls
`st.error` / `st.warning` together with the early `return []` are modelled
by the `error` / `warned` fields of `GenResult`.
-/

/-- The `Course` dataclass of `Class22.py`: one course-section record. -/
structure Course where
  name : String
  type : String
  class_id : String
  credits : Int
  priority : Int
  time_slots : List (String × Int)
  must_select : Bool
  temporarily_exclude : Bool
  teacher : String
  notes : String
deriving Repr, DecidableEq, Inhabited

/-- One generated schedule: the tuple
`(combo, total_priority, total_credits, req_credits, ele_credits, conflicts, conflict_count)`
built inside `generate_schedules`.  `conflicts` is `none` when the Python code
stores `None` (which it does exactly when `conflict_count == 0`). -/
structure Schedule where
  combo : List Course
  total_priority : Int
  total_credits : Int
  req_credits : Int
  ele_credits : Int
  conflicts : Option (List (String × Int × List Course))
  conflict_count : Nat
deriving Repr, DecidableEq, Inhabited

/-- Result of `generate_schedules`: the returned list, the course name passed
to `st.error` when the must-select precondition fails (with the early
`return []`), and whether the max-schedules `st.warning` fired. -/
structure GenResult where
  schedules : List Schedule
  error : Option String
  warned : Bool
deriving Repr, DecidableEq

/-- One step `grouped_courses.setdefault(name, []).append(c)` on an
insertion-ordered dict: append `c` to the bucket of its name, or add a new
bucket at the end. -/
def appendGroup (m : List (String × List Course)) (c : Course) :
    List (String × List Course) :=
  match m with
  | [] => [(c.name, [c])]
  | (k, g) :: rest =>
      if k = c.name then (k, g ++ [c]) :: rest else (k, g) :: appendGroup rest c

/-- The grouping loop `for c in available_courses: grouped_courses[c.name].append(c)`. -/
def group_courses (available_courses : List Course) : List (String × List Course) :=
  available_courses.foldl appendGroup []

/-- Python sort key `lambda c: (not c.must_select, -c.priority)` as a boolean
`≤`-comparator (lexicographic on the pair, `False < True`). -/
def group_le (a b : Course) : Bool :=
  (if a.must_select then 0 else 1) < (if b.must_select then 0 else 1) ∨
    ((if a.must_select then (0 : Nat) else 1) = (if b.must_select then 0 else 1) ∧
      -a.priority ≤ -b.priority)

/-- The per-group sorting loop: must-select sections first, then descending
priority (`sorted(group, key=lambda c: (not c.must_select, -c.priority))`). -/
def sort_groups (m : List (String × List Course)) : List (String × List Course) :=
  m.map (fun p => (p.1, p.2.mergeSort group_le))

/-- One step `time_slot_map.setdefault((day, period), []).append(c)`. -/
def addOccupant (m : List ((String × Int) × List Course)) (key : String × Int)
    (c : Course) : List ((String × Int) × List Course) :=
  match m with
  | [] => [(key, [c])]
  | (k, g) :: rest =>
      if k = key then (k, g ++ [c]) :: rest else (k, g) :: addOccupant rest key c

/-- The nested loop `for c in combo: for (day, period) in c.time_slots: ...`
building the slot-to-occupants map. -/
def time_slot_map (combo : List Course) : List ((String × Int) × List Course) :=
  combo.foldl (fun m c => c.time_slots.foldl (fun m dp => addOccupant m dp c) m) []

/-- The evaluation step of `generate_schedules`: scores one combination. -/
def evaluate (combo : List Course) : Schedule :=
  let tsm := time_slot_map combo
  let conflict_count := ((tsm.filter (fun p => 1 < p.2.length)).map
    (fun p => p.2.length - 1)).sum
  let conflicts := (tsm.filter (fun p => 1 < p.2.length)).map
    (fun p => (p.1.1, p.1.2, p.2))
  { combo := combo
    total_priority := (combo.map (fun c => c.priority)).sum
    total_credits := (combo.map (fun c => c.credits)).sum
    req_credits := ((combo.filter (fun c => c.type = "必修")).map
      (fun c => c.credits)).sum
    ele_credits := ((combo.filter (fun c => c.type = "選修")).map
      (fun c => c.credits)).sum
    conflicts := if conflict_count = 0 then none else some conflicts
    conflict_count := conflict_count }

/-- The product `itertools.product(*course_options)`: the first list varies
slowest, the last varies fastest. -/
def product_lists : List (List Course) → List (List Course)
  | [] => [[]]
  | g :: gs => g.flatMap (fun c => (product_lists gs).map (fun rest => c :: rest))

/-- The per-candidate check
`all(any(c.name == name for c in combo) for name in must_select_names)`. -/
def has_all_must_select (must_select_names : List String) (combo : List Course) : Bool :=
  must_select_names.all (fun name => combo.any (fun c => c.name = name))

/-- The enumeration loop over `all_combinations` with the running counter
`count_generated`: stops (with the `st.warning`, second component `true`) as
soon as a combination is reached while `count ≥ max_schedules`; skips
combinations failing `has_all_must_select`; keeps the rest in order. -/
def enum_combos (must_select_names : List String) (max_schedules : Nat) :
    List (List Course) → Nat → List (List Course) × Bool
  | [], _ => ([], false)
  | combo :: rest, count =>
      if max_schedules ≤ count then ([], true)
      else if has_all_must_select must_select_names combo then
        let r := enum_combos must_select_names max_schedules rest (count + 1)
        (combo :: r.1, r.2)
      else enum_combos must_select_names max_schedules rest count

/-- One step `schedules.setdefault(conflict_count, []).append(schedule)`. -/
def addSchedule (m : List (Nat × List Schedule)) (s : Schedule) :
    List (Nat × List Schedule) :=
  match m with
  | [] => [(s.conflict_count, [s])]
  | (k, g) :: rest =>
      if k = s.conflict_count then (k, g ++ [s]) :: rest
      else (k, g) :: addSchedule rest s

/-- The dict `schedules` keyed by conflict count, built in enumeration order. -/
def build_schedules_dict (ss : List Schedule) : List (Nat × List Schedule) :=
  ss.foldl addSchedule []

/-- Python sort key `lambda x: (-x[1], -x[2])` (descending total priority,
then descending total credits) as a boolean `≤`-comparator. -/
def gen_sched_le (a b : Schedule) : Bool :=
  -a.total_priority < -b.total_priority ∨
    (-a.total_priority = -b.total_priority ∧ -a.total_credits ≤ -b.total_credits)

/-- The set `must_select_names = set(c.name for c in required_courses if c.must_select)`,
modelled as the generating list (all uses are membership tests, so duplicates
and order are irrelevant exactly as for the Python set). -/
def must_select_names_of (required_courses : List Course) : List String :=
  (required_courses.filter (fun c => c.must_select)).map (fun c => c.name)

/-- The filtered pool `available_courses = [c for c in courses if not c.temporarily_exclude]`. -/
def available_of (courses : List Course) : List Course :=
  courses.filter (fun c => !c.temporarily_exclude)

/-- The grouped, per-group-sorted courses derived from the pool. -/
def grouped_of (courses : List Course) : List (String × List Course) :=
  sort_groups (group_courses (available_of courses))

/-- The list `all_combinations = itertools.product(*course_options)` for a pool. -/
def combos_of (courses : List Course) : List (List Course) :=
  product_lists ((grouped_of courses).map (fun p => p.2))

/-- The precondition loop `for name in must_select_names: if not any(...)`:
the first must-select name with no available section, if any. -/
def missing_must_select (courses required_courses : List Course) : Option String :=
  (must_select_names_of required_courses).find?
    (fun name => !(available_of courses).any (fun c => c.name = name))

/-- The final ordering stage: group the generated schedules by conflict count
(`schedules` dict), iterate the keys in ascending order, sort each group by
`(-total_priority, -total_credits)`, and flatten
(`sorted(schedules.keys())` + per-group `sort` + `extend`). -/
def sorted_schedules (ss : List Schedule) : List Schedule :=
  ((build_schedules_dict ss).mergeSort (fun a b => a.1 ≤ b.1)).flatMap
    (fun p => p.2.mergeSort gen_sched_le)

/-- The function `generate_schedules(courses, required_courses, elective_courses,
max_schedules)` of `Class22.py`. -/
def generate_schedules (courses required_courses elective_courses : List Course)
    (max_schedules : Nat) : GenResult :=
  match missing_must_select courses required_courses with
  | some name => { schedules := [], error := some name, warned := false }
  | none =>
      let r := enum_combos (must_select_names_of required_courses) max_schedules
        (combos_of courses) 0
      { schedules := sorted_schedules (r.1.map evaluate), error := none, warned := r.2 }

/-- The two sort options offered in the UI (`sort_option` radio buttons). -/
inductive SortOption where
  | conflicts_first
  | priority_first
deriving Repr, DecidableEq

/-- The comparator induced by `sort_key` / `sort_key_generated`:
option 1 sorts by `(conflict_count, -total_priority)`, option 2 by
`(-total_priority, conflict_count)` (lexicographic tuple order). -/
def sort_key_le (opt : SortOption) (a b : Schedule) : Bool :=
  match opt with
  | .conflicts_first =>
      a.conflict_count < b.conflict_count ∨
        (a.conflict_count = b.conflict_count ∧ -a.total_priority ≤ -b.total_priority)
  | .priority_first =>
      -a.total_priority < -b.total_priority ∨
        (-a.total_priority = -b.total_priority ∧ a.conflict_count ≤ b.conflict_count)

/-- The call `schedules.sort(key=sort_key)` (Python's sort is stable, as is
`mergeSort`). -/
def rank (schedules : List Schedule) (opt : SortOption) : List Schedule :=
  schedules.mergeSort (sort_key_le opt)

/-- Specification-side characterisation (claim about ordering): the distinct
names of a list in order of first appearance. -/
def dedup_first (names : List String) : List String :=
  names.foldl (fun acc n => if n ∈ acc then acc else acc ++ [n]) []

/-- Specification-side characterisation (claim about ordering): all index
tuples over the given radices, first position varying slowest. -/
def index_tuples : List Nat → List (List Nat)
  | [] => [[]]
  | n :: ns => (List.range n).flatMap (fun i => (index_tuples ns).map (fun rest => i :: rest))

/-- Selects group members by an index tuple (one index per group). -/
def select_indices (gs : List (List Course)) (idx : List Nat) : List Course :=
  List.zipWith (fun g i => g.getD i default) gs idx

/-- Concrete fixture courses for closed witness statements. -/
def courseA : Course :=
  ⟨"A", "必修", "1", 3, 5, [("Mon", 1)], false, false, "", ""⟩

def courseB : Course :=
  ⟨"B", "必修", "1", 2, 3, [("Mon", 1)], false, false, "", ""⟩

def courseC : Course :=
  ⟨"C", "選修", "1", 1, 4, [("Tue", 2)], false, false, "", ""⟩

def courseA2 : Course :=
  ⟨"A", "必修", "2", 3, 2, [("Mon", 2)], false, false, "", ""⟩

def courseM : Course :=
  ⟨"M", "必修", "1", 3, 5, [("Wed", 1)], true, true, "", ""⟩

def courseDup : Course :=
  ⟨"D", "必修", "1", 3, 5, [("Mon", 1), ("Mon", 1)], false, false, "", ""⟩

/-! ### Properties of the boolean comparators -/

theorem group_le_trans (a b c : Course) (hab : group_le a b = true)
    (hbc : group_le b c = true) : group_le a c = true := by
  simp only [group_le, decide_eq_true_eq] at *
  cases ha : a.must_select <;> cases hb : b.must_select <;> cases hc : c.must_select <;>
    simp [ha, hb, hc] at * <;> omega

theorem group_le_total (a b : Course) : group_le a b || group_le b a := by
  simp only [group_le, Bool.or_eq_true, decide_eq_true_eq]
  cases ha : a.must_select <;> cases hb : b.must_select <;> simp [ha, hb] <;> omega

theorem gen_sched_le_trans (a b c : Schedule) (hab : gen_sched_le a b = true)
    (hbc : gen_sched_le b c = true) : gen_sched_le a c = true := by
  simp only [gen_sched_le, decide_eq_true_eq] at *
  omega

theorem gen_sched_le_total (a b : Schedule) : gen_sched_le a b || gen_sched_le b a := by
  simp only [gen_sched_le, Bool.or_eq_true, decide_eq_true_eq]
  omega

theorem sort_key_le_trans (opt : SortOption) (a b c : Schedule)
    (hab : sort_key_le opt a b = true) (hbc : sort_key_le opt b c = true) :
    sort_key_le opt a c = true := by
  cases opt <;> simp only [sort_key_le, decide_eq_true_eq] at * <;> omega

theorem sort_key_le_total (opt : SortOption) (a b : Schedule) :
    sort_key_le opt a b || sort_key_le opt b a := by
  cases opt <;> simp only [sort_key_le, Bool.or_eq_true, decide_eq_true_eq] <;> omega

/-! ### The Cartesian product -/

theorem mem_product_lists : ∀ {gs : List (List Course)} {combo : List Course},
    combo ∈ product_lists gs → List.Forall₂ (fun c g => c ∈ g) combo gs := by
  intro gs
  induction gs with
  | nil =>
      intro combo h
      simp only [product_lists, List.mem_singleton] at h
      subst h
      exact List.Forall₂.nil
  | cons g gs ih =>
      intro combo h
      simp only [product_lists, List.mem_flatMap, List.mem_map] at h
      obtain ⟨c, hc, rest, hrest, rfl⟩ := h
      exact List.Forall₂.cons hc (ih hrest)

theorem length_of_mem_product_lists {gs : List (List Course)} {combo : List Course}
    (h : combo ∈ product_lists gs) : combo.length = gs.length :=
  (mem_product_lists h).length_eq

/-! ### The enumeration loop -/

theorem enum_combos_subset (msn : List String) (m : Nat) :
    ∀ (combos : List (List Course)) (count : Nat) (x : List Course),
      x ∈ (enum_combos msn m combos count).1 → x ∈ combos := by
  intro combos
  induction combos with
  | nil =>
      intro count x h
      simp [enum_combos] at h
  | cons c rest ih =>
      intro count x h
      simp only [enum_combos] at h
      by_cases h1 : m ≤ count
      · simp [h1] at h
      · by_cases h2 : has_all_must_select msn c = true
        · simp only [h1, if_false, h2, if_true] at h
          rcases List.mem_cons.mp h with h | h
          · exact List.mem_cons.mpr (Or.inl h)
          · exact List.mem_cons.mpr (Or.inr (ih (count + 1) x h))
        · simp only [h1, if_false, h2] at h
          exact List.mem_cons.mpr (Or.inr (ih count x h))

theorem enum_combos_length (msn : List String) (m : Nat) :
    ∀ (combos : List (List Course)) (count : Nat),
      (enum_combos msn m combos count).1.length ≤ m - count := by
  intro combos
  induction combos with
  | nil => intro count; simp [enum_combos]
  | cons c rest ih =>
      intro count
      simp only [enum_combos]
      by_cases h1 : m ≤ count
      · simp [h1]
      · by_cases h2 : has_all_must_select msn c = true
        · rw [if_neg h1, if_pos h2]
          simp only [List.length_cons]
          have := ih (count + 1)
          omega
        · rw [if_neg h1, if_neg h2]
          have := ih count
          omega

theorem enum_combos_all_pass (msn : List String) (m : Nat) :
    ∀ (combos : List (List Course)) (count : Nat),
      (∀ x ∈ combos, has_all_must_select msn x = true) →
      enum_combos msn m combos count =
        (combos.take (m - count), decide (m - count < combos.length)) := by
  intro combos
  induction combos with
  | nil => intro count _; simp [enum_combos]
  | cons c rest ih =>
      intro count hall
      simp only [enum_combos]
      by_cases h1 : m ≤ count
      · have hmc : m - count = 0 := by omega
        simp [h1, hmc]
      · have hc : has_all_must_select msn c = true := hall c (List.mem_cons_self c rest)
        have hrest : ∀ x ∈ rest, has_all_must_select msn x = true :=
          fun x hx => hall x (List.mem_cons_of_mem c hx)
        rw [if_neg h1, if_pos hc, ih (count + 1) hrest]
        have hk : m - count = (m - (count + 1)) + 1 := by omega
        rw [hk]
        simp only [List.take_succ_cons, List.length_cons, Prod.mk.injEq, true_and,
          decide_eq_decide]
        omega

/-! ### Grouping invariants -/

theorem appendGroup_name_eq (m : List (String × List Course)) (c : Course)
    (hm : ∀ p ∈ m, ∀ d ∈ p.2, d.name = p.1) :
    ∀ p ∈ appendGroup m c, ∀ d ∈ p.2, d.name = p.1 := by
  induction m with
  | nil =>
      intro p hp d hd
      simp only [appendGroup, List.mem_singleton] at hp
      subst hp
      simp only [List.mem_singleton] at hd
      subst hd
      rfl
  | cons q rest ih =>
      obtain ⟨k, g⟩ := q
      intro p hp d hd
      simp only [appendGroup] at hp
      by_cases hk : k = c.name
      · rw [if_pos hk] at hp
        rcases List.mem_cons.mp hp with rfl | hp
        · rcases List.mem_append.mp hd with hd | hd
          · exact hm (k, g) (List.mem_cons_self _ _) d hd
          · simp only [List.mem_singleton] at hd
            subst hd
            exact hk.symm
        · exact hm p (List.mem_cons_of_mem _ hp) d hd
      · rw [if_neg hk] at hp
        rcases List.mem_cons.mp hp with rfl | hp
        · exact hm (k, g) (List.mem_cons_self _ _) d hd
        · exact ih (fun p hp => hm p (List.mem_cons_of_mem _ hp)) p hp d hd

theorem group_courses_name_eq_aux :
    ∀ (l : List Course) (m : List (String × List Course)),
      (∀ p ∈ m, ∀ d ∈ p.2, d.name = p.1) →
      ∀ p ∈ l.foldl appendGroup m, ∀ d ∈ p.2, d.name = p.1 := by
  intro l
  induction l with
  | nil => intro m hm; simpa using hm
  | cons c rest ih =>
      intro m hm
      simp only [List.foldl_cons]
      exact ih (appendGroup m c) (appendGroup_name_eq m c hm)

theorem group_courses_name_eq (l : List Course) :
    ∀ p ∈ group_courses l, ∀ d ∈ p.2, d.name = p.1 :=
  group_courses_name_eq_aux l [] (by simp)

theorem appendGroup_keys (m : List (String × List Course)) (c : Course) :
    (appendGroup m c).map (fun p => p.1) =
      if c.name ∈ m.map (fun p => p.1) then m.map (fun p => p.1)
      else m.map (fun p => p.1) ++ [c.name] := by
  induction m with
  | nil => simp [appendGroup]
  | cons q rest ih =>
      obtain ⟨k, g⟩ := q
      simp only [appendGroup, List.map_cons]
      by_cases hk : k = c.name
      · rw [if_pos hk]
        simp [hk]
      · rw [if_neg hk]
        simp only [List.map_cons, ih, List.mem_cons]
        have hne : ¬ (c.name = k) := fun h => hk h.symm
        by_cases hmem : c.name ∈ rest.map (fun p => p.1)
        · rw [if_pos hmem, if_pos (Or.inr hmem)]
        · rw [if_neg hmem, if_neg (by rintro (h | h) <;> [exact hne h; exact hmem h])]
          simp

theorem group_courses_keys_aux :
    ∀ (l : List Course) (m : List (String × List Course)),
      (l.foldl appendGroup m).map (fun p => p.1) =
        (l.map (fun c => c.name)).foldl
          (fun acc n => if n ∈ acc then acc else acc ++ [n]) (m.map (fun p => p.1)) := by
  intro l
  induction l with
  | nil => intro m; simp
  | cons c rest ih =>
      intro m
      simp only [List.foldl_cons, List.map_cons, ih, appendGroup_keys]

theorem group_courses_keys (l : List Course) :
    (group_courses l).map (fun p => p.1) = dedup_first (l.map (fun c => c.name)) := by
  simpa using group_courses_keys_aux l []

theorem mem_dedup_first_aux :
    ∀ (names acc : List String) (n : String),
      n ∈ names.foldl (fun acc n => if n ∈ acc then acc else acc ++ [n]) acc ↔
        n ∈ acc ∨ n ∈ names := by
  intro names
  induction names with
  | nil => intro acc n; simp
  | cons x rest ih =>
      intro acc n
      simp only [List.foldl_cons, ih, List.mem_cons]
      by_cases hx : x ∈ acc
      · rw [if_pos hx]
        constructor
        · rintro (h | h)
          · exact Or.inl h
          · exact Or.inr (Or.inr h)
        · rintro (h | rfl | h)
          · exact Or.inl h
          · exact Or.inl hx
          · exact Or.inr h
      · rw [if_neg hx]
        simp only [List.mem_append, List.mem_singleton]
        tauto

theorem mem_dedup_first (names : List String) (n : String) :
    n ∈ dedup_first names ↔ n ∈ names := by
  simpa [dedup_first] using mem_dedup_first_aux names [] n

theorem sort_groups_keys (m : List (String × List Course)) :
    (sort_groups m).map (fun p => p.1) = m.map (fun p => p.1) := by
  simp [sort_groups, List.map_map, Function.comp]

theorem mem_sort_groups {m : List (String × List Course)} {p : String × List Course}
    (hp : p ∈ sort_groups m) :
    ∃ q ∈ m, p.1 = q.1 ∧ ∀ d : Course, d ∈ p.2 ↔ d ∈ q.2 := by
  simp only [sort_groups, List.mem_map] at hp
  obtain ⟨q, hq, rfl⟩ := hp
  exact ⟨q, hq, rfl, fun d => List.mem_mergeSort⟩

theorem grouped_of_name_eq (courses : List Course) :
    ∀ p ∈ grouped_of courses, ∀ d ∈ p.2, d.name = p.1 := by
  intro p hp d hd
  obtain ⟨q, hq, h1, h2⟩ := mem_sort_groups hp
  rw [h1]
  exact group_courses_name_eq (available_of courses) q hq d ((h2 d).mp hd)

theorem grouped_of_keys (courses : List Course) :
    (grouped_of courses).map (fun p => p.1) =
      dedup_first ((available_of courses).map (fun c => c.name)) := by
  rw [grouped_of, sort_groups_keys, group_courses_keys]

theorem mem_grouped_of_keys (courses : List Course) (n : String) :
    n ∈ (grouped_of courses).map (fun p => p.1) ↔
      ∃ c ∈ available_of courses, c.name = n := by
  rw [grouped_of_keys, mem_dedup_first]
  simp

/-! ### Dict of schedules by conflict count -/

theorem addSchedule_flatMap (m : List (Nat × List Schedule)) (s : Schedule) :
    ((addSchedule m s).flatMap (fun p => p.2)).Perm (m.flatMap (fun p => p.2) ++ [s]) := by
  induction m with
  | nil => simp [addSchedule]
  | cons q rest ih =>
      obtain ⟨k, g⟩ := q
      simp only [addSchedule]
      by_cases hk : k = s.conflict_count
      · rw [if_pos hk]
        simp only [List.flatMap_cons, List.append_assoc]
        exact (List.Perm.append_left g
          (by simpa using @List.perm_append_comm Schedule [s] (rest.flatMap (fun p => p.2))))
      · rw [if_neg hk]
        simp only [List.flatMap_cons, List.append_assoc]
        exact List.Perm.append_left g ih

theorem build_schedules_dict_flatMap_aux :
    ∀ (ss : List Schedule) (m : List (Nat × List Schedule)),
      ((ss.foldl addSchedule m).flatMap (fun p => p.2)).Perm
        (m.flatMap (fun p => p.2) ++ ss) := by
  intro ss
  induction ss with
  | nil => intro m; simp
  | cons s rest ih =>
      intro m
      simp only [List.foldl_cons]
      refine (ih (addSchedule m s)).trans ?_
      have h1 := (addSchedule_flatMap m s).append_right rest
      simpa [List.append_assoc] using h1

theorem build_schedules_dict_flatMap (ss : List Schedule) :
    ((build_schedules_dict ss).flatMap (fun p => p.2)).Perm ss := by
  simpa [build_schedules_dict] using build_schedules_dict_flatMap_aux ss []

theorem addSchedule_bucket_cc (m : List (Nat × List Schedule)) (s : Schedule)
    (hm : ∀ p ∈ m, ∀ t ∈ p.2, t.conflict_count = p.1) :
    ∀ p ∈ addSchedule m s, ∀ t ∈ p.2, t.conflict_count = p.1 := by
  induction m with
  | nil =>
      intro p hp t ht
      simp only [addSchedule, List.mem_singleton] at hp
      subst hp
      simp only [List.mem_singleton] at ht
      subst ht
      rfl
  | cons q rest ih =>
      obtain ⟨k, g⟩ := q
      intro p hp t ht
      simp only [addSchedule] at hp
      by_cases hk : k = s.conflict_count
      · rw [if_pos hk] at hp
        rcases List.mem_cons.mp hp with rfl | hp
        · rcases List.mem_append.mp ht with ht | ht
          · exact hm (k, g) (List.mem_cons_self _ _) t ht
          · simp only [List.mem_singleton] at ht
            subst ht
            exact hk.symm
        · exact hm p (List.mem_cons_of_mem _ hp) t ht
      · rw [if_neg hk] at hp
        rcases List.mem_cons.mp hp with rfl | hp
        · exact hm (k, g) (List.mem_cons_self _ _) t ht
        · exact ih (fun p hp => hm p (List.mem_cons_of_mem _ hp)) p hp t ht

theorem build_schedules_dict_bucket_cc (ss : List Schedule) :
    ∀ p ∈ build_schedules_dict ss, ∀ t ∈ p.2, t.conflict_count = p.1 := by
  have aux : ∀ (l : List Schedule) (m : List (Nat × List Schedule)),
      (∀ p ∈ m, ∀ t ∈ p.2, t.conflict_count = p.1) →
      ∀ p ∈ l.foldl addSchedule m, ∀ t ∈ p.2, t.conflict_count = p.1 := by
    intro l
    induction l with
    | nil => intro m hm; simpa using hm
    | cons s rest ih =>
        intro m hm
        simp only [List.foldl_cons]
        exact ih (addSchedule m s) (addSchedule_bucket_cc m s hm)
  exact aux ss [] (by simp)

theorem mem_keys_addSchedule (m : List (Nat × List Schedule)) (s : Schedule) (x : Nat) :
    x ∈ (addSchedule m s).map (fun p => p.1) ↔
      x ∈ m.map (fun p => p.1) ∨ x = s.conflict_count := by
  induction m with
  | nil => simp [addSchedule]
  | cons q rest ih =>
      obtain ⟨k, g⟩ := q
      simp only [addSchedule]
      by_cases hk : k = s.conflict_count
      · rw [if_pos hk]
        subst hk
        simp only [List.map_cons, List.mem_cons]
        tauto
      · rw [if_neg hk]
        simp only [List.map_cons, List.mem_cons, ih]
        tauto

theorem addSchedule_keys_nodup (m : List (Nat × List Schedule)) (s : Schedule)
    (hm : (m.map (fun p => p.1)).Nodup) :
    ((addSchedule m s).map (fun p => p.1)).Nodup := by
  induction m with
  | nil => simp [addSchedule]
  | cons q rest ih =>
      obtain ⟨k, g⟩ := q
      simp only [List.map_cons, List.nodup_cons] at hm
      simp only [addSchedule]
      by_cases hk : k = s.conflict_count
      · rw [if_pos hk]
        simp only [List.map_cons, List.nodup_cons]
        exact ⟨hm.1, hm.2⟩
      · rw [if_neg hk]
        simp only [List.map_cons, List.nodup_cons, mem_keys_addSchedule]
        refine ⟨?_, ih hm.2⟩
        rintro (h | h)
        · exact hm.1 h
        · exact hk h

theorem build_schedules_dict_keys_nodup (ss : List Schedule) :
    ((build_schedules_dict ss).map (fun p => p.1)).Nodup := by
  have aux : ∀ (l : List Schedule) (m : List (Nat × List Schedule)),
      (m.map (fun p => p.1)).Nodup →
      ((l.foldl addSchedule m).map (fun p => p.1)).Nodup := by
    intro l
    induction l with
    | nil => intro m hm; simpa using hm
    | cons s rest ih =>
        intro m hm
        simp only [List.foldl_cons]
        exact ih (addSchedule m s) (addSchedule_keys_nodup m s hm)
  exact aux ss [] (by simp)

/-! ### Permutation plumbing for the final sorting stage -/

theorem flatMap_perm_congr {α β : Type} (l : List α) (f g : α → List β)
    (h : ∀ a ∈ l, (f a).Perm (g a)) : (l.flatMap f).Perm (l.flatMap g) := by
  induction l with
  | nil => simp
  | cons a rest ih =>
      simp only [List.flatMap_cons]
      exact (h a (List.mem_cons_self _ _)).append
        (ih (fun a ha => h a (List.mem_cons_of_mem _ ha)))

theorem sorted_schedules_perm (ss : List Schedule) : (sorted_schedules ss).Perm ss := by
  unfold sorted_schedules
  have h1 := flatMap_perm_congr ((build_schedules_dict ss).mergeSort (fun a b => a.1 ≤ b.1))
    (fun p => p.2.mergeSort gen_sched_le) (fun p => p.2)
    (fun p _ => List.mergeSort_perm p.2 gen_sched_le)
  have h2 := List.Perm.flatMap_right (fun p : Nat × List Schedule => p.2)
    (List.mergeSort_perm (build_schedules_dict ss) (fun a b => a.1 ≤ b.1))
  exact (h1.trans h2).trans (build_schedules_dict_flatMap ss)

/-! ### Unfolding lemmas for generate_schedules -/

theorem generate_schedules_error (courses required_courses elective_courses : List Course)
    (max_schedules : Nat) :
    (generate_schedules courses required_courses elective_courses max_schedules).error =
      missing_must_select courses required_courses := by
  unfold generate_schedules
  cases h : missing_must_select courses required_courses <;> simp [h]

theorem generate_schedules_of_missing_some
    {courses required_courses : List Course} {n : String}
    (elective_courses : List Course) (max_schedules : Nat)
    (h : missing_must_select courses required_courses = some n) :
    generate_schedules courses required_courses elective_courses max_schedules =
      { schedules := [], error := some n, warned := false } := by
  unfold generate_schedules
  rw [h]

theorem generate_schedules_of_missing_none
    {courses required_courses : List Course}
    (elective_courses : List Course) (max_schedules : Nat)
    (h : missing_must_select courses required_courses = none) :
    generate_schedules courses required_courses elective_courses max_schedules =
      { schedules := sorted_schedules
          (((enum_combos (must_select_names_of required_courses) max_schedules
            (combos_of courses) 0).1).map evaluate),
        error := none,
        warned := (enum_combos (must_select_names_of required_courses) max_schedules
          (combos_of courses) 0).2 } := by
  unfold generate_schedules
  rw [h]

/-! ### Feasibility after the precondition check -/

theorem combos_pass_of_missing_none
    {courses required_courses : List Course}
    (h : missing_must_select courses required_courses = none) :
    ∀ combo ∈ combos_of courses,
      has_all_must_select (must_select_names_of required_courses) combo = true := by
  intro combo hcombo
  rw [missing_must_select, List.find?_eq_none] at h
  rw [has_all_must_select, List.all_eq_true]
  intro name hname
  have havail : ∃ c, c ∈ available_of courses ∧ c.name = name := by
    have hx := h name hname
    simp only [Bool.not_eq_true', Bool.not_eq_false, List.any_eq_true,
      decide_eq_true_eq] at hx
    exact hx
  have hkey : name ∈ (grouped_of courses).map (fun p => p.1) :=
    (mem_grouped_of_keys courses name).mpr (by
      obtain ⟨c, hc1, hc2⟩ := havail
      exact ⟨c, hc1, hc2⟩)
  obtain ⟨p, hp, hpname⟩ := List.mem_map.mp hkey
  obtain ⟨i, hi⟩ := List.mem_iff_get.mp hp
  have hfa := mem_product_lists (show combo ∈ product_lists
    ((grouped_of courses).map (fun p => p.2)) from hcombo)
  rw [List.forall₂_iff_get] at hfa
  obtain ⟨hlen, hget⟩ := hfa
  have hil : i.1 < combo.length := by
    rw [hlen, List.length_map]
    exact i.2
  have hbl : i.1 < ((grouped_of courses).map (fun p => p.2)).length := by
    rw [List.length_map]
    exact i.2
  have hmem := hget i.1 hil hbl
  have hb : ((grouped_of courses).map (fun p => p.2)).get ⟨i.1, hbl⟩ =
      ((grouped_of courses).get i).2 := by
    simp [List.getElem_map]
  rw [hb] at hmem
  have hnameeq : (combo.get ⟨i.1, hil⟩).name = name := by
    have hne := grouped_of_name_eq courses ((grouped_of courses).get i)
      (List.get_mem _ _ _) (combo.get ⟨i.1, hil⟩) hmem
    rw [hne, hi, hpname]
  rw [List.any_eq_true]
  exact ⟨combo.get ⟨i.1, hil⟩, List.get_mem _ _ _, by simpa using hnameeq⟩

theorem enum_eq_take_of_missing_none
    {courses required_courses : List Course} (max_schedules : Nat)
    (h : missing_must_select courses required_courses = none) :
    enum_combos (must_select_names_of required_courses) max_schedules
        (combos_of courses) 0 =
      ((combos_of courses).take max_schedules,
        decide (max_schedules < (combos_of courses).length)) := by
  have := enum_combos_all_pass (must_select_names_of required_courses) max_schedules
    (combos_of courses) 0 (combos_pass_of_missing_none h)
  simpa using this

theorem generate_schedules_schedules_eq
    {courses required_courses : List Course} (elective_courses : List Course)
    (max_schedules : Nat)
    (h : missing_must_select courses required_courses = none) :
    (generate_schedules courses required_courses elective_courses max_schedules).schedules =
      sorted_schedules (((combos_of courses).take max_schedules).map evaluate) := by
  rw [generate_schedules_of_missing_none elective_courses max_schedules h,
    enum_eq_take_of_missing_none max_schedules h]

theorem generate_schedules_schedules_perm
    {courses required_courses : List Course} (elective_courses : List Course)
    (max_schedules : Nat)
    (h : missing_must_select courses required_courses = none) :
    ((generate_schedules courses required_courses elective_courses
        max_schedules).schedules).Perm
      (((combos_of courses).take max_schedules).map evaluate) := by
  rw [generate_schedules_schedules_eq elective_courses max_schedules h]
  exact sorted_schedules_perm _

theorem evaluate_combo (combo : List Course) : (evaluate combo).combo = combo := rfl

/-- C1: if any course name in `mustSelectNames` (names with a mustSelect
section among the Required-category sections of the original, unfiltered
pool) has no section left after filtering out temporarily-excluded sections,
then `generate_schedules` fails before any enumeration, reporting an
offending course name, and returns no candidates. -/
theorem C1_missing_must_select_fails
    (courses required_courses elective_courses : List Course) (max_schedules : Nat)
    (h : ∃ c ∈ required_courses, c.must_select = true ∧
      ∀ d ∈ courses, d.temporarily_exclude = false → d.name ≠ c.name) :
    (generate_schedules courses required_courses elective_courses
      max_schedules).schedules = [] ∧
    ∃ n, (generate_schedules courses required_courses elective_courses
        max_schedules).error = some n ∧
      n ∈ must_select_names_of required_courses ∧
      ∀ d ∈ available_of courses, d.name ≠ n := by
  obtain ⟨c, hc, hms, hnone⟩ := h
  have hmem : c.name ∈ must_select_names_of required_courses := by
    rw [must_select_names_of]
    exact List.mem_map.mpr ⟨c, List.mem_filter.mpr ⟨hc, by simp [hms]⟩, rfl⟩
  have hpred : (!(available_of courses).any (fun d => d.name = c.name)) = true := by
    rw [Bool.not_eq_true']
    rw [List.any_eq_false]
    intro d hd
    rw [available_of, List.mem_filter] at hd
    have hdx : d.temporarily_exclude = false := by simpa using hd.2
    simpa using hnone d hd.1 hdx
  have hsome : (missing_must_select courses required_courses).isSome := by
    rw [missing_must_select]
    exact List.find?_isSome.mpr ⟨c.name, hmem, hpred⟩
  obtain ⟨n, hn⟩ := Option.isSome_iff_exists.mp hsome
  have hn' : (must_select_names_of required_courses).find?
      (fun name => !(available_of courses).any (fun c => c.name = name)) = some n := by
    rw [missing_must_select] at hn
    exact hn
  have hgen := generate_schedules_of_missing_some elective_courses max_schedules hn
  constructor
  · rw [hgen]
  · refine ⟨n, by rw [hgen], List.mem_of_find?_eq_some hn', ?_⟩
    have hp := List.find?_some hn'
    simp only [Bool.not_eq_true', List.any_eq_false, decide_eq_true_eq] at hp
    exact hp

theorem C1_missing_must_select_fails_witness :
    (∃ c ∈ [courseM, courseA], c.must_select = true ∧
      ∀ d ∈ [courseM, courseA], d.temporarily_exclude = false → d.name ≠ c.name) ∧
    ((generate_schedules [courseM, courseA] [courseM, courseA] [] 1000).schedules = [] ∧
      ∃ n, (generate_schedules [courseM, courseA] [courseM, courseA] [] 1000).error =
          some n ∧
        n ∈ must_select_names_of [courseM, courseA] ∧
        ∀ d ∈ available_of [courseM, courseA], d.name ≠ n) :=
  ⟨by decide, C1_missing_must_select_fails [courseM, courseA] [courseM, courseA] [] 1000
    (by decide)⟩

/-- C2: when the must-select precondition check passed (no error), every
candidate contains exactly one section per course group (its combo length
equals the number of groups), and the per-candidate must-select check is
true for every product tuple, never rejecting a candidate. -/
theorem C2_one_section_per_group
    (courses required_courses elective_courses : List Course) (max_schedules : Nat)
    (h : (generate_schedules courses required_courses elective_courses
      max_schedules).error = none) :
    (∀ s ∈ (generate_schedules courses required_courses elective_courses
        max_schedules).schedules, s.combo.length = (grouped_of courses).length) ∧
    (∀ combo ∈ combos_of courses,
      has_all_must_select (must_select_names_of required_courses) combo = true) := by
  have hmiss : missing_must_select courses required_courses = none := by
    rw [← generate_schedules_error courses required_courses elective_courses max_schedules]
    exact h
  refine ⟨?_, combos_pass_of_missing_none hmiss⟩
  intro s hs
  have hperm := generate_schedules_schedules_perm elective_courses max_schedules hmiss
  have hs2 : s ∈ ((combos_of courses).take max_schedules).map evaluate :=
    hperm.mem_iff.mp hs
  obtain ⟨combo, hcombo, rfl⟩ := List.mem_map.mp hs2
  have hcombo2 : combo ∈ combos_of courses := List.mem_of_mem_take hcombo
  have hlen := length_of_mem_product_lists (show combo ∈ product_lists
    ((grouped_of courses).map (fun p => p.2)) from hcombo2)
  rw [evaluate_combo]
  simpa using hlen

theorem C2_one_section_per_group_witness :
    (generate_schedules [courseA, courseB, courseC] [courseA, courseB] [courseC]
      1000).error = none ∧
    ((∀ s ∈ (generate_schedules [courseA, courseB, courseC] [courseA, courseB] [courseC]
        1000).schedules,
        s.combo.length = (grouped_of [courseA, courseB, courseC]).length) ∧
     (∀ combo ∈ combos_of [courseA, courseB, courseC],
        has_all_must_select (must_select_names_of [courseA, courseB]) combo = true)) :=
  ⟨rfl, C2_one_section_per_group [courseA, courseB, courseC] [courseA, courseB]
    [courseC] 1000 rfl⟩

/-- C9: the `elective_courses` parameter has no effect on the result of
`generate_schedules`: two calls differing only in that argument return
identical outputs. -/
theorem C9_elective_courses_no_effect
    (courses required_courses e1 e2 : List Course) (max_schedules : Nat) :
    generate_schedules courses required_courses e1 max_schedules =
      generate_schedules courses required_courses e2 max_schedules := rfl

/-! ### Evaluator lemmas -/

theorem evaluate_conflict_count_def (combo : List Course) :
    (evaluate combo).conflict_count =
      (((time_slot_map combo).filter (fun p => 1 < p.2.length)).map
        (fun p => p.2.length - 1)).sum := rfl

theorem evaluate_conflicts_def (combo : List Course) :
    (evaluate combo).conflicts =
      if (((time_slot_map combo).filter (fun p => 1 < p.2.length)).map
          (fun p => p.2.length - 1)).sum = 0 then none
      else some (((time_slot_map combo).filter (fun p => 1 < p.2.length)).map
        (fun p => (p.1.1, p.1.2, p.2))) := rfl

theorem filter_conflict_sum_eq (l : List ((String × Int) × List Course)) :
    ((l.filter (fun p => 1 < p.2.length)).map (fun p => p.2.length - 1)).sum =
      (l.map (fun p => p.2.length - 1)).sum := by
  induction l with
  | nil => rfl
  | cons p rest ih =>
      by_cases hp : 1 < p.2.length
      · simp [hp, ih]
      · have h0 : p.2.length - 1 = 0 := by omega
        simp [hp, ih, h0]

theorem evaluate_conflicts_none_iff (combo : List Course) :
    (evaluate combo).conflict_count = 0 ↔ (evaluate combo).conflicts = none := by
  rw [evaluate_conflict_count_def, evaluate_conflicts_def]
  by_cases h : (((time_slot_map combo).filter (fun p => 1 < p.2.length)).map
      (fun p => p.2.length - 1)).sum = 0
  · simp [h]
  · simp [h]

theorem mem_schedules_eq_evaluate
    {courses required_courses elective_courses : List Course} {max_schedules : Nat}
    {s : Schedule}
    (hs : s ∈ (generate_schedules courses required_courses elective_courses
      max_schedules).schedules) :
    ∃ combo ∈ combos_of courses, s = evaluate combo := by
  cases hmiss : missing_must_select courses required_courses with
  | some n =>
      rw [generate_schedules_of_missing_some elective_courses max_schedules hmiss] at hs
      simp at hs
  | none =>
      have hperm := generate_schedules_schedules_perm elective_courses max_schedules hmiss
      have hs2 : s ∈ ((combos_of courses).take max_schedules).map evaluate :=
        hperm.mem_iff.mp hs
      obtain ⟨combo, hcombo, rfl⟩ := List.mem_map.mp hs2
      exact ⟨combo, List.mem_of_mem_take hcombo, rfl⟩

/-- C3: for every candidate, `conflictCount` equals the sum of
(occupants − 1) over the time-slot-map keys with at least two occupants
(equivalently, the sum of `max(0, occupants − 1)` over all keys, which
truncated natural subtraction expresses), and `conflictCount = 0` holds
exactly when the stored conflicts value is the empty one (`None`). -/
theorem C3_conflict_count_correct
    (courses required_courses elective_courses : List Course) (max_schedules : Nat)
    (s : Schedule)
    (hs : s ∈ (generate_schedules courses required_courses elective_courses
      max_schedules).schedules) :
    s.conflict_count = (((time_slot_map s.combo).filter (fun p => 1 < p.2.length)).map
      (fun p => p.2.length - 1)).sum ∧
    s.conflict_count = ((time_slot_map s.combo).map (fun p => p.2.length - 1)).sum ∧
    (s.conflict_count = 0 ↔ s.conflicts = none) := by
  obtain ⟨combo, _, rfl⟩ := mem_schedules_eq_evaluate hs
  rw [evaluate_combo]
  exact ⟨evaluate_conflict_count_def combo,
    (evaluate_conflict_count_def combo).trans (filter_conflict_sum_eq _),
    evaluate_conflicts_none_iff combo⟩

theorem C3_conflict_count_correct_witness :
    (evaluate [courseA, courseB, courseC] ∈
      (generate_schedules [courseA, courseB, courseC] [courseA, courseB] [courseC]
        1000).schedules) ∧
    ((evaluate [courseA, courseB, courseC]).conflict_count =
      (((time_slot_map (evaluate [courseA, courseB, courseC]).combo).filter
        (fun p => 1 < p.2.length)).map (fun p => p.2.length - 1)).sum ∧
    (evaluate [courseA, courseB, courseC]).conflict_count =
      ((time_slot_map (evaluate [courseA, courseB, courseC]).combo).map
        (fun p => p.2.length - 1)).sum ∧
    ((evaluate [courseA, courseB, courseC]).conflict_count = 0 ↔
      (evaluate [courseA, courseB, courseC]).conflicts = none)) :=
  ⟨by simp [generate_schedules, missing_must_select, combos_of, grouped_of, group_courses,
      appendGroup, sort_groups, available_of, must_select_names_of, enum_combos,
      has_all_must_select, sorted_schedules, build_schedules_dict, addSchedule,
      List.mergeSort, courseA, courseB, courseC, product_lists],
   C3_conflict_count_correct [courseA, courseB, courseC] [courseA, courseB] [courseC]
    1000 (evaluate [courseA, courseB, courseC])
    (by simp [generate_schedules, missing_must_select, combos_of, grouped_of,
      group_courses, appendGroup, sort_groups, available_of, must_select_names_of,
      enum_combos, has_all_must_select, sorted_schedules, build_schedules_dict,
      addSchedule, List.mergeSort, courseA, courseB, courseC, product_lists])⟩

/-- C4: for every pool and budget, at most `budget` candidates are returned;
with budget 0 the result is empty; and the truncation warning fires exactly
when the precondition passed and the Cartesian product is longer than the
budget (the remainder being discarded). -/
theorem C4_budget_bound
    (courses required_courses elective_courses : List Course) (max_schedules : Nat) :
    (generate_schedules courses required_courses elective_courses
      max_schedules).schedules.length ≤ max_schedules ∧
    (max_schedules = 0 → (generate_schedules courses required_courses elective_courses
      max_schedules).schedules = []) ∧
    ((generate_schedules courses required_courses elective_courses
        max_schedules).warned = true ↔
      (generate_schedules courses required_courses elective_courses
        max_schedules).error = none ∧ max_schedules < (combos_of courses).length) := by
  cases hmiss : missing_must_select courses required_courses with
  | some n =>
      rw [generate_schedules_of_missing_some elective_courses max_schedules hmiss]
      refine ⟨by simp, fun _ => rfl, by simp⟩
  | none =>
      refine ⟨?_, ?_, ?_⟩
      · have hperm := generate_schedules_schedules_perm elective_courses max_schedules hmiss
        have hlen := hperm.length_eq
        rw [hlen, List.length_map, List.length_take]
        omega
      · intro hm0
        subst hm0
        rw [generate_schedules_schedules_eq elective_courses 0 hmiss]
        simp [sorted_schedules, build_schedules_dict]
      · rw [generate_schedules_of_missing_none elective_courses max_schedules hmiss,
          enum_eq_take_of_missing_none max_schedules hmiss]
        simp

theorem C4_budget_bound_witness :
    (generate_schedules [courseA, courseA2, courseB] [courseA, courseA2, courseB] []
      0).schedules.length ≤ 0 ∧
    (0 = 0 → (generate_schedules [courseA, courseA2, courseB] [courseA, courseA2, courseB]
      [] 0).schedules = []) ∧
    ((generate_schedules [courseA, courseA2, courseB] [courseA, courseA2, courseB]
        [] 0).warned = true ↔
      (generate_schedules [courseA, courseA2, courseB] [courseA, courseA2, courseB]
        [] 0).error = none ∧ 0 < (combos_of [courseA, courseA2, courseB]).length) :=
  C4_budget_bound [courseA, courseA2, courseB] [courseA, courseA2, courseB] [] 0

/-! ### Three-key order of the generated list -/

theorem sorted_schedules_pairwise (ss : List Schedule) :
    List.Pairwise (fun a b : Schedule =>
      a.conflict_count < b.conflict_count ∨
        (a.conflict_count = b.conflict_count ∧
          (b.total_priority < a.total_priority ∨
            (a.total_priority = b.total_priority ∧
              b.total_credits ≤ a.total_credits)))) (sorted_schedules ss) := by
  unfold sorted_schedules
  rw [List.flatMap_def, List.pairwise_flatten]
  constructor
  · intro b hb
    rw [List.mem_map] at hb
    obtain ⟨p, hp, rfl⟩ := hb
    have hcc : ∀ t ∈ p.2.mergeSort gen_sched_le, t.conflict_count = p.1 := by
      intro t ht
      exact build_schedules_dict_bucket_cc ss p (List.mem_mergeSort.mp hp) t
        (List.mem_mergeSort.mp ht)
    have hsorted := List.sorted_mergeSort gen_sched_le_trans gen_sched_le_total p.2
    refine hsorted.imp_of_mem ?_
    intro a b ha hb hab
    right
    refine ⟨(hcc a ha).trans (hcc b hb).symm, ?_⟩
    simp only [gen_sched_le, decide_eq_true_eq] at hab
    omega
  · rw [List.pairwise_map]
    have hkey : List.Pairwise (fun p q : Nat × List Schedule => p.1 < q.1)
        ((build_schedules_dict ss).mergeSort (fun a b => a.1 ≤ b.1)) := by
      have hle := @List.sorted_mergeSort (Nat × List Schedule)
        (fun a b => decide (a.1 ≤ b.1))
        (fun a b c hab hbc => by
          simp only [decide_eq_true_eq] at *
          omega)
        (fun a b => by
          simp only [Bool.or_eq_true, decide_eq_true_eq]
          omega)
        (build_schedules_dict ss)
      have hperm := (List.mergeSort_perm (build_schedules_dict ss)
        (fun a b => a.1 ≤ b.1)).map (fun p => p.1)
      have hnd : (((build_schedules_dict ss).mergeSort (fun a b => a.1 ≤ b.1)).map
          (fun p => p.1)).Nodup :=
        (build_schedules_dict_keys_nodup ss).perm hperm.symm
      have hne := List.pairwise_map.mp hnd
      refine (hle.and hne).imp ?_
      intro p q h
      obtain ⟨h1, h2⟩ := h
      simp only [decide_eq_true_eq] at h1
      omega
    refine hkey.imp_of_mem ?_
    intro p q hp hq hpq x hx y hy
    left
    have hcx : x.conflict_count = p.1 :=
      build_schedules_dict_bucket_cc ss p (List.mem_mergeSort.mp hp) x
        (List.mem_mergeSort.mp hx)
    have hcy : y.conflict_count = q.1 :=
      build_schedules_dict_bucket_cc ss q (List.mem_mergeSort.mp hq) y
        (List.mem_mergeSort.mp hy)
    omega

/-- C5: the list returned by `generate_schedules` is ordered by conflict
count ascending, then total priority descending, then total credits
descending: each adjacent pair satisfies the three-key comparison. -/
theorem C5_generated_three_key_order
    (courses required_courses elective_courses : List Course) (max_schedules : Nat) :
    List.Chain' (fun a b : Schedule =>
      a.conflict_count < b.conflict_count ∨
        (a.conflict_count = b.conflict_count ∧
          (b.total_priority < a.total_priority ∨
            (a.total_priority = b.total_priority ∧
              b.total_credits ≤ a.total_credits))))
      (generate_schedules courses required_courses elective_courses
        max_schedules).schedules := by
  cases hmiss : missing_must_select courses required_courses with
  | some n =>
      rw [generate_schedules_of_missing_some elective_courses max_schedules hmiss]
      simp
  | none =>
      rw [generate_schedules_schedules_eq elective_courses max_schedules hmiss]
      exact (sorted_schedules_pairwise _).chain'

/-- C7: ranking under policy P1 (conflicts first) never places a candidate
with strictly lower conflict count after one with higher conflict count:
for positions i < j in the ranked output, the conflict count at i is at
most the conflict count at j. -/
theorem C7_rank_P1_conflict_monotone
    (l : List Schedule) (i j : Nat) (hij : i < j)
    (hj : j < (rank l SortOption.conflicts_first).length) :
    ((rank l SortOption.conflicts_first).get ⟨i, Nat.lt_trans hij hj⟩).conflict_count ≤
      ((rank l SortOption.conflicts_first).get ⟨j, hj⟩).conflict_count := by
  have hpw := List.sorted_mergeSort (sort_key_le_trans SortOption.conflicts_first)
    (sort_key_le_total SortOption.conflicts_first) l
  have hj' : j < (List.mergeSort l (sort_key_le SortOption.conflicts_first)).length := hj
  have h := List.pairwise_iff_getElem.mp hpw i j (Nat.lt_trans hij hj') hj' hij
  simp only [sort_key_le, decide_eq_true_eq] at h
  simp only [rank, List.get_eq_getElem]
  omega

theorem C7_rank_P1_conflict_monotone_witness :
    ((0 : Nat) < 1) ∧
    (((rank [evaluate [courseA], evaluate [courseB]]
        SortOption.conflicts_first).get ⟨0, by simp [rank]⟩).conflict_count ≤
      ((rank [evaluate [courseA], evaluate [courseB]]
        SortOption.conflicts_first).get ⟨1, by simp [rank]⟩).conflict_count) :=
  ⟨by decide, C7_rank_P1_conflict_monotone [evaluate [courseA], evaluate [courseB]] 0 1
    (by decide) (by simp [rank])⟩

/-- C8: ranking is idempotent: applying `rank` twice with the same policy
yields the same order as applying it once (the sort is stable and the
comparator total and transitive). -/
theorem C8_rank_idempotent (l : List Schedule) (opt : SortOption) :
    rank (rank l opt) opt = rank l opt := by
  unfold rank
  exact List.mergeSort_of_sorted
    (List.sorted_mergeSort (sort_key_le_trans opt) (sort_key_le_total opt) l)

/-- C6 (counterexample): a pool with a single section listing the same
(day, period) slot twice yields one candidate with conflict count 1, not 0:
duplicates within one section are not deduplicated before conflict
evaluation. -/
theorem C6_duplicate_slot_counterexample :
    (generate_schedules [courseDup] [courseDup] [] 1000).schedules.map
      (fun s => s.conflict_count) = [1] ∧
    ∃ s ∈ (generate_schedules [courseDup] [courseDup] [] 1000).schedules,
      s.conflict_count ≠ 0 := by
  refine ⟨?_, ?_⟩ <;>
    simp [generate_schedules, missing_must_select, combos_of, grouped_of, group_courses,
      appendGroup, sort_groups, available_of, must_select_names_of, enum_combos,
      has_all_must_select, sorted_schedules, build_schedules_dict, addSchedule,
      List.mergeSort, courseDup, product_lists, evaluate, time_slot_map, addOccupant]

/-- C6 (amended): duplicate (day, period) pairs within one section's
timeSlots are not deduplicated before conflict evaluation: each repetition
counts as a separate occupant, so a candidate consisting of a single
section that lists the same (day, period) twice incurs conflict count 1
from that slot, with the section recorded twice as occupant. -/
theorem C6_duplicate_slot_counted
    (c : Course) (d : String) (p : Int) (h : c.time_slots = [(d, p), (d, p)]) :
    (evaluate [c]).conflict_count = 1 ∧
    (evaluate [c]).conflicts = some [(d, p, [c, c])] := by
  have htsm : time_slot_map [c] = [((d, p), [c, c])] := by
    rw [time_slot_map]
    simp [h, addOccupant]
  rw [evaluate_conflict_count_def, evaluate_conflicts_def, htsm]
  constructor <;> simp

theorem C6_duplicate_slot_counted_witness :
    courseDup.time_slots = [("Mon", 1), ("Mon", 1)] ∧
    ((evaluate [courseDup]).conflict_count = 1 ∧
      (evaluate [courseDup]).conflicts = some [("Mon", 1, [courseDup, courseDup])]) :=
  ⟨rfl, C6_duplicate_slot_counted courseDup "Mon" 1 rfl⟩

/-! ### Positional characterisation of the enumeration order -/

theorem flatMap_range_getD {β : Type} (g : List Course) (f : Course → List β) :
    g.flatMap f = (List.range g.length).flatMap (fun i => f (g.getD i default)) := by
  induction g with
  | nil => simp
  | cons c rest ih =>
      rw [List.length_cons, List.range_succ_eq_map]
      simp only [List.flatMap_cons, List.flatMap_map, List.getD_cons_zero,
        List.getD_cons_succ]
      rw [ih]

theorem product_lists_eq_index : ∀ (gs : List (List Course)),
    product_lists gs =
      (index_tuples (gs.map (fun g => g.length))).map (select_indices gs) := by
  intro gs
  induction gs with
  | nil => simp [product_lists, index_tuples, select_indices]
  | cons g gs ih =>
      rw [product_lists, ih, List.map_cons, index_tuples,
        flatMap_range_getD g
          (fun c => ((index_tuples (gs.map (fun g => g.length))).map
            (select_indices gs)).map (fun rest => c :: rest)),
        List.map_flatMap]
      congr 1
      funext i
      simp only [List.map_map]
      apply List.map_congr_left
      intro rest _
      rfl

theorem index_tuples_pairwise_lex : ∀ (ns : List Nat),
    List.Pairwise (List.Lex (fun a b : Nat => a < b)) (index_tuples ns) := by
  intro ns
  induction ns with
  | nil => simp [index_tuples]
  | cons n ns ih =>
      rw [index_tuples, List.flatMap_def, List.pairwise_flatten]
      constructor
      · intro b hb
        rw [List.mem_map] at hb
        obtain ⟨i, _, rfl⟩ := hb
        rw [List.pairwise_map]
        exact ih.imp (fun h => List.Lex.cons h)
      · rw [List.pairwise_map]
        refine (List.pairwise_lt_range n).imp ?_
        intro i j hij x hx y hy
        rw [List.mem_map] at hx hy
        obtain ⟨xs, _, rfl⟩ := hx
        obtain ⟨ys, _, rfl⟩ := hy
        exact List.Lex.rel hij

/-- C10: the enumeration order is fixed and positional: course groups are
ordered by first appearance of their name in the exclusion-filtered pool;
the Cartesian product enumerates exactly the index tuples over the groups
in lexicographic order (first group slowest); the enumeration loop keeps
exactly the first `min(budget, product size)` tuples of that order, and the
returned schedules are a permutation of their evaluations. -/
theorem C10_enumeration_order_positional
    (courses required_courses elective_courses : List Course) (max_schedules : Nat)
    (h : (generate_schedules courses required_courses elective_courses
      max_schedules).error = none) :
    ((grouped_of courses).map (fun p => p.1) =
      dedup_first ((available_of courses).map (fun c => c.name))) ∧
    (combos_of courses =
      (index_tuples ((grouped_of courses).map (fun p => p.2.length))).map
        (select_indices ((grouped_of courses).map (fun p => p.2)))) ∧
    List.Pairwise (List.Lex (fun a b : Nat => a < b))
      (index_tuples ((grouped_of courses).map (fun p => p.2.length))) ∧
    ((enum_combos (must_select_names_of required_courses) max_schedules
        (combos_of courses) 0).1 = (combos_of courses).take max_schedules) ∧
    ((generate_schedules courses required_courses elective_courses
        max_schedules).schedules.map (fun s => s.combo)).Perm
      ((combos_of courses).take max_schedules) := by
  have hmiss : missing_must_select courses required_courses = none := by
    rw [← generate_schedules_error courses required_courses elective_courses max_schedules]
    exact h
  refine ⟨grouped_of_keys courses, ?_, index_tuples_pairwise_lex _, ?_, ?_⟩
  · rw [combos_of, product_lists_eq_index, List.map_map]
    rfl
  · rw [enum_eq_take_of_missing_none max_schedules hmiss]
  · have hperm := (generate_schedules_schedules_perm elective_courses max_schedules
      hmiss).map (fun s => s.combo)
    refine hperm.trans ?_
    rw [List.map_map]
    have hid : ∀ (l : List (List Course)),
        List.map ((fun s => s.combo) ∘ evaluate) l = l := by
      intro l
      induction l with
      | nil => rfl
      | cons x xs ih =>
          rw [List.map_cons, ih]
          rfl
    rw [hid ((combos_of courses).take max_schedules)]

theorem C10_enumeration_order_positional_witness :
    (generate_schedules [courseA, courseA2, courseB] [courseA, courseA2, courseB] []
      1000).error = none ∧
    (((grouped_of [courseA, courseA2, courseB]).map (fun p => p.1) =
        dedup_first ((available_of [courseA, courseA2, courseB]).map (fun c => c.name))) ∧
      (combos_of [courseA, courseA2, courseB] =
        (index_tuples ((grouped_of [courseA, courseA2, courseB]).map
          (fun p => p.2.length))).map
          (select_indices ((grouped_of [courseA, courseA2, courseB]).map
            (fun p => p.2)))) ∧
      List.Pairwise (List.Lex (fun a b : Nat => a < b))
        (index_tuples ((grouped_of [courseA, courseA2, courseB]).map
          (fun p => p.2.length))) ∧
      ((enum_combos (must_select_names_of [courseA, courseA2, courseB]) 1000
          (combos_of [courseA, courseA2, courseB]) 0).1 =
        (combos_of [courseA, courseA2, courseB]).take 1000) ∧
      ((generate_schedules [courseA, courseA2, courseB] [courseA, courseA2, courseB] []
          1000).schedules.map (fun s => s.combo)).Perm
        ((combos_of [courseA, courseA2, courseB]).take 1000)) :=
  ⟨rfl, C10_enumeration_order_positional [courseA, courseA2, courseB]
    [courseA, courseA2, courseB] [] 1000 rfl⟩
